import Mathlib

/-!
Verification of the chain-orchestration subsystem of the ai-lambda-service
repository: the template evaluator/compiler (src/template.js), and the
dependency analyzer and chain executor (engine, modelled from the spec).
-/

/-- JSON-shaped values: the data universe over which templates, contexts and
handler inputs/outputs range (JS objects are modelled as ordered association
lists, arrays as lists). -/
inductive JValue where
  | null : JValue
  | str (s : String) : JValue
  | num (n : Int) : JValue
  | bool (b : Bool) : JValue
  | arr (xs : List JValue) : JValue
  | obj (fields : List (String × JValue)) : JValue
deriving Repr

/-- First-match association-list lookup, matching JS own-property access. -/
def lookupField : List (String × JValue) → String → Option JValue
  | [], _ => none
  | (k, v) :: rest, s => if k = s then some v else lookupField rest s

/-- A path segment: a property name or a numeric index (from `name[0]`). -/
inductive Seg where
  | key (s : String) : Seg
  | idx (n : Nat) : Seg
deriving DecidableEq, Repr

/-- Canonical array-index strings: nonempty digit strings without a leading
zero (except "0"), as in the JS array-index treatment of string keys. -/
def canonicalIndex (cs : List Char) : Option Nat :=
  if cs ≠ [] ∧ cs.all Char.isDigit ∧ (cs = ['0'] ∨ cs.head? ≠ some '0') then
    some (cs.foldl (fun acc c => acc * 10 + (c.toNat - 48)) 0)
  else none

/-- Indexing one segment into a value (`current[segment]` guarded by
`segment in current` in template.js). Returns none when absent. -/
def getSeg : JValue → Seg → Option JValue
  | .obj fs, .key s => lookupField fs s
  | .obj fs, .idx n => lookupField fs (toString n)
  | .arr xs, .idx n => xs.get? n
  | .arr xs, .key s =>
      match canonicalIndex s.toList with
      | some n => xs.get? n
      | none => none
  | _, _ => none

/-- `typeof current === 'object'` (null is tested before this in the code). -/
def indexable : JValue → Bool
  | .arr _ => true
  | .obj _ => true
  | _ => false

def isNullJ : JValue → Bool
  | .null => true
  | _ => false

/-- JS truthiness. -/
def truthy : JValue → Bool
  | .null => false
  | .bool b => b
  | .num n => n ≠ 0
  | .str s => s ≠ ""
  | .arr _ => true
  | .obj _ => true

/-- `Object.keys(current)`: field names of an object, index strings of an
array (used in the missing-property diagnostic of template.js). -/
def availableKeys : JValue → List String
  | .obj fs => fs.map Prod.fst
  | .arr xs => (List.range xs.length).map toString
  | _ => []

/-- The structured content of the errors thrown by evaluateTemplate
(template.js lines 53-73): the stripped path, the consumed segment
slice `segments.slice(0, i)`, and for a missing property the offending
segment plus the available keys. -/
inductive EvalError where
  | nullTraversal (path : List Char) (consumed : List Seg) : EvalError
  | notObject (path : List Char) (consumed : List Seg) : EvalError
  | missingProp (path : List Char) (consumed : List Seg) (segment : Seg)
      (available : List String) : EvalError
deriving DecidableEq, Repr

/-- The traversal loop of evaluateTemplate (template.js lines 48-78):
null check, then typeof check, then `in` check, then step. -/
def traverseSegs (path : List Char) (cur : JValue) (segs : List Seg)
    (consumed : List Seg) : Except EvalError JValue :=
  match segs with
  | [] => .ok cur
  | s :: rest =>
    if isNullJ cur then .error (.nullTraversal path consumed)
    else if indexable cur then
      match getSeg cur s with
      | some w => traverseSegs path w rest (consumed ++ [s])
      | none => .error (.missingProp path consumed s (availableKeys cur))
    else .error (.notObject path consumed)

/-- JS `\w` character class. -/
def isWordChar (c : Char) : Bool := c.isAlphanum || c = '_'

/-- Value of a nonempty digit string (the `parseInt` of the bracket match). -/
def natOfDigits (ds : List Char) : Nat :=
  ds.foldl (fun acc c => acc * 10 + (c.toNat - 48)) 0

/-- Match of the regex `^(\w+)\[(\d+)\]$` of template.js line 31. -/
def matchArrayIndex (cs : List Char) : Option (List Char × Nat) :=
  let name := cs.takeWhile isWordChar
  let rest := cs.dropWhile isWordChar
  match rest with
  | '[' :: rest2 =>
    let digits := rest2.takeWhile Char.isDigit
    let after := rest2.dropWhile Char.isDigit
    if name ≠ [] ∧ digits ≠ [] ∧ after = [']'] then
      some (name, natOfDigits digits)
    else none
  | _ => none

/-- Explode one dot-segment: `name[0]` becomes the two segments
`name`, `0`; anything else is a single key segment (template.js 29-36). -/
def explodeSegment (cs : List Char) : List Seg :=
  match matchArrayIndex cs with
  | some (name, n) => [.key (String.mk name), .idx n]
  | none => [.key (String.mk cs)]

/-- `path.split('.')` on a character list. -/
def splitByDot : List Char → List (List Char)
  | [] => [[]]
  | c :: rest =>
    if c = '.' then [] :: splitByDot rest
    else
      match splitByDot rest with
      | [] => [[c]]
      | g :: gs => (c :: g) :: gs

/-- `String.prototype.trim` on a character list. -/
def jsTrim (cs : List Char) : List Char :=
  ((cs.dropWhile Char.isWhitespace).reverse.dropWhile Char.isWhitespace).reverse

/-- Removal of the optional `{{ }}` delimiters (template.js lines 23-26):
strip when the trimmed string both starts with `{{` and ends with `}}`,
then trim again. -/
def stripBraces (cs : List Char) : List Char :=
  if cs.take 2 = ['{', '{'] ∧ cs.reverse.take 2 = ['}', '}'] then
    jsTrim ((cs.drop 2).reverse.drop 2).reverse
  else cs

/-- The stripped path of an expression string: trim, then delimiter removal. -/
def pathOf (templateString : String) : List Char :=
  stripBraces (jsTrim templateString.toList)

/-- Split the path on dots and explode bracket-index segments. -/
def parseSegments (path : List Char) : List Seg :=
  ((splitByDot path).map explodeSegment).flatten

/-- The reserved path roots of template.js line 40. -/
def reservedKeys : List String := ["input", "steps", "stepsByName", "previousStep"]

def segIsReserved : Seg → Bool
  | .key s => decide (s ∈ reservedKeys)
  | .idx _ => false

/-- `segment in current` as used only for the stepsByName membership test. -/
def hasSeg (v : JValue) (s : Seg) : Bool := (getSeg v s).isSome

/-- The condition of template.js lines 42-45:
`context.stepsByName && segments[0] in context.stepsByName`. -/
def stepsByNameHas (context : JValue) (s0 : Seg) : Bool :=
  match context with
  | .obj fs =>
    match lookupField fs "stepsByName" with
    | some v => truthy v && hasSeg v s0
    | none => false
  | _ => false

/-- The implicit rewrite of template.js lines 38-46: a non-reserved first
segment present in stepsByName gets `stepsByName` unshifted in front. -/
def rewriteSegs (segs : List Seg) (context : JValue) : List Seg :=
  match segs with
  | [] => []
  | s0 :: _ =>
    if ¬ segIsReserved s0 ∧ stepsByNameHas context s0 then
      .key "stepsByName" :: segs
    else segs

/-- The segments actually traversed for an expression string. -/
def finalSegments (templateString : String) (context : JValue) : List Seg :=
  rewriteSegs (parseSegments (pathOf templateString)) context

/-- evaluateTemplate of template.js: strip delimiters, split and explode
segments, apply the stepsByName rewrite, then traverseSegs the context. -/
def evaluateTemplate (templateString : String) (context : JValue) :
    Except EvalError JValue :=
  traverseSegs (pathOf templateString) context
    (finalSegments templateString context) []

/-- Line-terminator characters, which `.` does not match in a JS regex. -/
def isLineTerminator (c : Char) : Bool :=
  c = '\n' || c = '\r' || c.toNat = 0x2028 || c.toNat = 0x2029

/-- Match of the regex `^\{\{(.+)\}\}$` of template.js line 98: the whole
string is `{{`, a nonempty run of non-line-terminator characters, `}}`. -/
def fullTemplateMatch (cs : List Char) : Bool :=
  cs.take 2 = ['{', '{'] && cs.reverse.take 2 = ['}', '}'] && decide (5 ≤ cs.length) &&
  ((cs.drop 2).reverse.drop 2).all (fun c => ¬ isLineTerminator c)

/-- `obj.includes('{{')`: two adjacent open braces somewhere. -/
def hasDoubleBrace : List Char → Bool
  | '{' :: '{' :: _ => true
  | _ :: rest => hasDoubleBrace rest
  | [] => false

/-- Errors raised by compileTemplate: the embedded-template error
(template.js lines 105-110) or an evaluation error from a full-string
template expression. -/
inductive CompileError where
  | embedded (s : String) : CompileError
  | evalError (e : EvalError) : CompileError
deriving DecidableEq, Repr

mutual
/-- compileTemplate of template.js: null and primitives pass through, a
full-string template expression is replaced by its evaluated value
(type-preserving), any other string containing `{{` is an embedded-template
error, plain strings pass through, arrays and objects are rebuilt
element-wise and key-wise. -/
def compileTemplate : JValue → JValue → Except CompileError JValue
  | .null, _ => .ok .null
  | .str s, context =>
    if fullTemplateMatch s.toList then
      (evaluateTemplate s context).mapError .evalError
    else if hasDoubleBrace s.toList then .error (.embedded s)
    else .ok (.str s)
  | .num n, _ => .ok (.num n)
  | .bool b, _ => .ok (.bool b)
  | .arr xs, context => (compileList xs context).map .arr
  | .obj fs, context => (compileFields fs context).map .obj

/-- `obj.map(item => compileTemplate(item, context))` with failure. -/
def compileList : List JValue → JValue → Except CompileError (List JValue)
  | [], _ => .ok []
  | x :: rest, context =>
    match compileTemplate x context with
    | .error e => .error e
    | .ok v =>
      match compileList rest context with
      | .error e => .error e
      | .ok vs => .ok (v :: vs)

/-- The `Object.entries` loop of template.js lines 123-126. -/
def compileFields : List (String × JValue) → JValue →
    Except CompileError (List (String × JValue))
  | [], _ => .ok []
  | (k, v) :: rest, context =>
    match compileTemplate v context with
    | .error e => .error e
    | .ok cv =>
      match compileFields rest context with
      | .error e => .error e
      | .ok cvs => .ok ((k, cv) :: cvs)
end

/-! ## Engine configuration model

The engine module (src/engine.js) is not part of the provided sources; only
its tests and the configuration documentation are. The definitions below are
modelled from the specification (sections 3, 4.4 and 4.5). -/

/-- Modelled from the spec: a `Step` of a `ChainSpec` (engine module, absent
from src/) — optional name, required target endpoint reference, required
input template. -/
structure MStep where
  name : Option String
  endpoint : String
  input : JValue

/-- Modelled from the spec: a `ChainSpec` (engine module, absent from src/) —
ordered steps plus an optional output template. -/
structure ChainSpec where
  steps : List MStep
  output : Option JValue

/-- Modelled from the spec: the handler-kind tagged union of an endpoint;
the three non-chain variants are collapsed into one leaf constructor since
only chain endpoints contribute edges to the reference graph. -/
inductive HandlerKind where
  | chain (spec : ChainSpec) : HandlerKind
  | primitive : HandlerKind

/-- Modelled from the spec: an endpoint definition (unique name, one
handler-kind variant). -/
structure Endpoint where
  name : String
  handler : HandlerKind

/-- Modelled from the spec: a loaded configuration — the endpoint list. -/
structure Config where
  endpoints : List Endpoint

/-- Modelled from the spec: the two startup-fatal analyzer errors —
`ConfigReferenceError` (referencing chain, unknown endpoint) and
`CircularDependencyError` (the cycle in traversal order, first node
repeated at the end as in `a -> b -> a`). -/
inductive DepError where
  | configReference (chain : String) (unknown : String) : DepError
  | circular (cycle : List String) : DepError
deriving DecidableEq, Repr

/-- The endpoint names referenced by an endpoint's steps (empty for
non-chain endpoints, which are graph leaves). -/
def chainRefs (e : Endpoint) : List String :=
  match e.handler with
  | .chain s => s.steps.map (·.endpoint)
  | .primitive => []

def endpointNames (cfg : Config) : List String := cfg.endpoints.map (·.name)

def findEndpoint (cfg : Config) (n : String) : Option Endpoint :=
  cfg.endpoints.find? (fun e => e.name = n)

/-- Successors of a node in the chain-reference graph. -/
def adj (cfg : Config) (n : String) : List String :=
  match findEndpoint cfg n with
  | some e => chainRefs e
  | none => []

/-- The chain endpoints: the nodes the analyzer starts a traversal from. -/
def chainNames (cfg : Config) : List String :=
  cfg.endpoints.filterMap (fun e =>
    match e.handler with
    | .chain _ => some e.name
    | .primitive => none)

/-- All names occurring in the configuration (endpoint names and referenced
names): a superset of every node the traversal can touch, used to bound the
recursion fuel. -/
def cfgNames (cfg : Config) : List String :=
  endpointNames cfg ++ cfg.endpoints.flatMap chainRefs

/-- Modelled from the spec: referential-integrity check of one endpoint's
references — the first reference that names no endpoint is reported with
the referencing chain. -/
def checkEndpointRefs (cfg : Config) (chain : String) :
    List String → Except DepError Unit
  | [] => .ok ()
  | r :: rs =>
    if r ∈ endpointNames cfg then checkEndpointRefs cfg chain rs
    else .error (.configReference chain r)

/-- Modelled from the spec: referential integrity over all endpoints, in
configuration order. -/
def checkReferences (cfg : Config) : List Endpoint → Except DepError Unit
  | [] => .ok ()
  | e :: es =>
    match checkEndpointRefs cfg e.name (chainRefs e) with
    | .error err => .error err
    | .ok _ => checkReferences cfg es

/-- Fold a visit function over a list of successor nodes in order,
threading the black set and stopping at the first error. -/
def foldVisit
    (f : String → List String → List String → Except DepError (List String)) :
    List String → List String → List String → Except DepError (List String)
  | [], _, visited => .ok visited
  | c :: cs, stack, visited =>
    match f c stack visited with
    | .error e => .error e
    | .ok visited2 => foldVisit f cs stack visited2

/-- Modelled from the spec: one depth-first visit with three-color marking —
`stack` holds the gray nodes in traversal order, `visited` the black ones
(most recently finished first). A back-edge into the stack reports the full
cycle from the first occurrence of the node, e.g. `a -> b -> a`. The fuel
only bounds recursion depth; `detectCircularDependencies` supplies enough
for it never to run out. -/
def dfsVisit (cfg : Config) :
    Nat → String → List String → List String → Except DepError (List String)
  | 0, _, _, visited => .ok visited
  | fuel + 1, node, stack, visited =>
    if node ∈ stack then
      .error (.circular (stack.dropWhile (· ≠ node) ++ [node]))
    else if node ∈ visited then .ok visited
    else
      match foldVisit (dfsVisit cfg fuel) (adj cfg node) (stack ++ [node])
          visited with
      | .error e => .error e
      | .ok visited2 => .ok (node :: visited2)

/-- Modelled from the spec: the startup dependency analysis — referential
integrity first, then cycle detection by depth-first traversal run from
every chain node. -/
def detectCircularDependencies (cfg : Config) : Except DepError Unit :=
  match checkReferences cfg cfg.endpoints with
  | .error e => .error e
  | .ok _ =>
    match foldVisit (dfsVisit cfg ((cfgNames cfg).length + 1)) (chainNames cfg) [] [] with
    | .error e => .error e
    | .ok _ => .ok ()

/-! ## Chain executor model -/

/-- Modelled from the spec: a handler registry entry (engine module, absent
from src/) — an executable handler capability that may fail with a message,
plus optional boolean input/output validators. -/
structure REntry where
  handler : JValue → Except String JValue
  validateInput : Option (JValue → Bool)
  validateOutput : Option (JValue → Bool)

/-- Modelled from the spec: the handler registry, a table from endpoint
name to entry. -/
def Registry := List (String × REntry)

def lookupReg : Registry → String → Option REntry
  | [], _ => none
  | (k, v) :: rest, s => if k = s then some v else lookupReg rest s

/-- Modelled from the spec: the per-invocation ExecutionContext — original
input, ordered step outputs, name-indexed step outputs, previous step
output (absent before the first step). -/
structure ECtx where
  input : JValue
  steps : List JValue
  stepsByName : List (String × JValue)
  previousStep : Option JValue

/-- JS object assignment `m[k] = v`: overwrite in place, else append. -/
def setField : List (String × JValue) → String → JValue →
    List (String × JValue)
  | [], k, v => [(k, v)]
  | (k', v') :: rest, k, v =>
    if k' = k then (k, v) :: rest else (k', v') :: setField rest k v

/-- The ExecutionContext as the JValue handed to the template compiler;
`previousStep` is only present once a step has completed. -/
def ctxValue (c : ECtx) : JValue :=
  .obj ([("input", c.input), ("steps", .arr c.steps),
         ("stepsByName", .obj c.stepsByName)] ++
        (match c.previousStep with
         | some v => [("previousStep", v)]
         | none => []))

def initCtx (input : JValue) : ECtx := ⟨input, [], [], none⟩

/-- Modelled from the spec: the ChainExecutionError variants — step
resolution, template compilation, input validation, handler failure
(carrying the underlying message), output validation at a step, or output
template compilation; each step-level variant carries the step index, the
step name when present, and the target endpoint. -/
inductive ChainError where
  | unknownEndpoint (stepIndex : Nat) (stepName : Option String)
      (endpoint : String) : ChainError
  | templateFailure (stepIndex : Nat) (stepName : Option String)
      (endpoint : String) (e : CompileError) : ChainError
  | inputValidation (stepIndex : Nat) (stepName : Option String)
      (endpoint : String) : ChainError
  | handlerFailure (stepIndex : Nat) (stepName : Option String)
      (endpoint : String) (message : String) : ChainError
  | outputValidation (stepIndex : Nat) (stepName : Option String)
      (endpoint : String) : ChainError
  | outputFailure (e : CompileError) : ChainError

/-- Record a validated step output: append to `steps`, set `previousStep`,
and bind the step name when present (spec 4.5 item 6). -/
def recordOutput (ctx : ECtx) (step : MStep) (output : JValue) : ECtx :=
  { input := ctx.input
    steps := ctx.steps ++ [output]
    stepsByName :=
      match step.name with
      | some n => setField ctx.stepsByName n output
      | none => ctx.stepsByName
    previousStep := some output }

/-- A validator is applied only when declared (spec 4.5 items 3 and 5). -/
def applyValidator (vo : Option (JValue → Bool)) (v : JValue) : Bool :=
  match vo with
  | some f => f v
  | none => true

/-- Modelled from the spec: the outcome of one step against a resolved
registry entry — compile the step input against the current context, apply
the input validator when declared, invoke the handler, apply the output
validator when declared; the first failure yields the matching ChainError
(spec 4.5 items 2-5). -/
def stepOutcome (entry : REntry) (step : MStep) (ctx : ECtx) (idx : Nat) :
    Except ChainError JValue :=
  match compileTemplate step.input (ctxValue ctx) with
  | .error e => .error (.templateFailure idx step.name step.endpoint e)
  | .ok compiledInput =>
    if applyValidator entry.validateInput compiledInput then
      match entry.handler compiledInput with
      | .error msg => .error (.handlerFailure idx step.name step.endpoint msg)
      | .ok output =>
        if applyValidator entry.validateOutput output then .ok output
        else .error (.outputValidation idx step.name step.endpoint)
    else .error (.inputValidation idx step.name step.endpoint)

/-- Modelled from the spec: the per-step loop of the Chain Executor
(spec 4.5 items 1-6) — resolve the target entry (absence aborts), take the
step outcome, record the validated output, continue with the next index. -/
def runSteps (reg : Registry) (steps : List MStep) (ctx : ECtx) (idx : Nat) :
    Except ChainError ECtx :=
  match steps with
  | [] => .ok ctx
  | step :: rest =>
    match lookupReg reg step.endpoint with
    | none => .error (.unknownEndpoint idx step.name step.endpoint)
    | some entry =>
      match stepOutcome entry step ctx idx with
      | .error e => .error e
      | .ok output => runSteps reg rest (recordOutput ctx step output) (idx + 1)

/-- Modelled from the spec: execute a chain — run all steps from a fresh
context; on success, compile `output` against the final context when
present, otherwise return the last recorded step output verbatim. -/
def executeChain (reg : Registry) (spec : ChainSpec) (input : JValue) :
    Except ChainError JValue :=
  match runSteps reg spec.steps (initCtx input) 0 with
  | .error e => .error e
  | .ok ctx =>
    match spec.output with
    | some tmpl =>
      (compileTemplate tmpl (ctxValue ctx)).mapError ChainError.outputFailure
    | none => .ok (ctx.steps.getLastD .null)

/-! ## Specification-side notions used to state the claims -/

/-- Pure segment walk, ignoring error classification: the value reached by
indexing each segment in turn, none as soon as a segment fails. -/
def walkN : JValue → List Seg → Option JValue
  | v, [] => some v
  | v, s :: rest =>
    match getSeg v s with
    | some w => walkN w rest
    | none => none

/-- The error the traversal must produce for first offending value `w` and
segment `seg` after consuming `consumed`: null-traversal when `w` is null,
a type error when `w` is not indexable, else the missing-property error
listing the available keys. -/
def classifyError (path : List Char) (consumed : List Seg) (w : JValue)
    (seg : Seg) : EvalError :=
  if isNullJ w then .nullTraversal path consumed
  else if indexable w then .missingProp path consumed seg (availableKeys w)
  else .notObject path consumed

/-- An edge of the chain-reference graph: some chain endpoint named `u`
references `v` in one of its steps. -/
def edge (cfg : Config) (u v : String) : Prop := v ∈ adj cfg u

instance (cfg : Config) (u v : String) : Decidable (edge cfg u v) := by
  unfold edge; infer_instance

/-- A closed walk in the reference graph: `u` followed by a nonempty chain
of successors ending back at `u`. -/
def HasCycle (cfg : Config) : Prop :=
  ∃ u l, l ≠ [] ∧ List.Chain (edge cfg) u l ∧ l.getLast? = some u

/-- `c` lists, in traversal order, every node of one simple cycle of the
reference graph, with the entry node repeated at the end (`a -> b -> a`). -/
def IsSimpleCycle (cfg : Config) (c : List String) : Prop :=
  ∃ u t, c = u :: t ++ [u] ∧ List.Chain' (edge cfg) c ∧ (u :: t).Nodup

/-- Every name referenced by some chain names an endpoint of the
configuration. -/
def RefsOk (cfg : Config) : Prop :=
  ∀ e ∈ cfg.endpoints, ∀ r ∈ chainRefs e, r ∈ endpointNames cfg

instance (cfg : Config) : Decidable (RefsOk cfg) := by
  unfold RefsOk; infer_instance

/-- The finish-order invariant of the black list: every successor of a
finished node finished strictly earlier (appears in the tail). -/
def topoClosed (cfg : Config) : List String → Prop
  | [] => True
  | u :: rest => (∀ w, edge cfg u w → w ∈ rest) ∧ topoClosed cfg rest

/-- Nodes remaining available for the gray stack: the bound that shrinks at
every push. -/
def stackMeasure (cfg : Config) (stack : List String) : Nat :=
  ((cfgNames cfg).filter (fun x => decide (x ∉ stack))).length

/-- Sample two-chain cyclic configuration (chain a -> b, chain b -> a). -/
def cfgAB : Config :=
  ⟨[⟨"a", .chain ⟨[⟨none, "b", .obj []⟩], none⟩⟩,
    ⟨"b", .chain ⟨[⟨none, "a", .obj []⟩], none⟩⟩]⟩

/-- Sample acyclic configuration. -/
def cfgGood : Config :=
  ⟨[⟨"base1", .primitive⟩, ⟨"base2", .primitive⟩,
    ⟨"chain", .chain ⟨[⟨none, "base1", .obj []⟩, ⟨none, "base2", .obj []⟩], none⟩⟩]⟩

/-- Sample configuration with an unknown reference. -/
def cfgMissing : Config :=
  ⟨[⟨"chain", .chain ⟨[⟨none, "nonexistent", .obj []⟩], none⟩⟩]⟩

/-! ## C1: strings containing double braces -/

/-- C1 counterexample: the claim holds '{{a}}{{b}}' to be a string that is
not a single whole-string expression and must raise the embedded-template
error; but the full-string regex of template.js line 98 matches it (the
greedy inner group spans `a}}{{b`), so compile evaluates it — here to the
number 42 — instead of failing. -/
theorem c1_counterexample :
    hasDoubleBrace "{{a}}{{b}}".toList = true ∧
    compileTemplate (.str "{{a}}{{b}}")
      (.obj [("stepsByName", .obj [("a\x7d\x7d\x7b\x7bb", .num 42)])]) = .ok (.num 42) :=
  ⟨rfl, rfl⟩

/-- C1 (amended): every string that contains `{{` and does not match the
full-string template pattern `^\{\{(.+)\}\}$` makes compile fail with the
embedded-template error carrying that string. -/
theorem c1_embedded_rejected (s : String) (ctx : JValue)
    (hdb : hasDoubleBrace s.toList = true)
    (hfm : fullTemplateMatch s.toList = false) :
    compileTemplate (.str s) ctx = .error (.embedded s) := by
  have hfm2 : fullTemplateMatch s.data = false := hfm
  have hdb2 : hasDoubleBrace s.data = true := hdb
  simp [compileTemplate, hfm2, hdb2]

/-- C1 witness: 'Hello {{name}}!' contains `{{`, fails the full-string
match, and compiles to the embedded-template error. -/
theorem c1_embedded_rejected_witness :
    hasDoubleBrace "Hello {{name}}!".toList = true ∧
    fullTemplateMatch "Hello {{name}}!".toList = false ∧
    compileTemplate (.str "Hello {{name}}!") (.obj []) =
      .error (.embedded "Hello {{name}}!") :=
  ⟨rfl, rfl, c1_embedded_rejected "Hello {{name}}!" (.obj []) rfl rfl⟩

/-! ## C2: full-string template expressions preserve the evaluated value -/

/-- C2: a template string that is a single whole-string expression compiles,
in any context where its path evaluates to a value, to exactly that value —
the evaluated JValue is returned as is, so its type is preserved. -/
theorem c2_full_template_preserves_value (s : String) (ctx v : JValue)
    (hfm : fullTemplateMatch s.toList = true)
    (heval : evaluateTemplate s ctx = .ok v) :
    compileTemplate (.str s) ctx = .ok v := by
  have hfm2 : fullTemplateMatch s.data = true := hfm
  simp [compileTemplate, hfm2, heval, Except.mapError]

/-- C2 witness: '{{previousStep.count}}' resolving to the number 5 compiles
to the number 5 (numeric, not stringified). -/
theorem c2_full_template_preserves_value_witness :
    compileTemplate (.str "{{previousStep.count}}")
      (.obj [("previousStep", .obj [("count", .num 5)])]) = .ok (.num 5) :=
  c2_full_template_preserves_value "{{previousStep.count}}"
    (.obj [("previousStep", .obj [("count", .num 5)])]) (.num 5) rfl rfl

/-! ## C4: traversal error classification -/

/-- The traversal returns the walked value exactly when every segment
resolves, and otherwise fails with the error classified from the first
offending segment: the first index `i` whose segment cannot be indexed in
the value reached by the prefix walk. -/
theorem traverse_characterization :
    ∀ (segs : List Seg) (cur : JValue) (path : List Char) (consumed : List Seg),
      (∀ v, traverseSegs path cur segs consumed = .ok v ↔ walkN cur segs = some v) ∧
      (∀ e, traverseSegs path cur segs consumed = .error e →
        ∃ i w seg, walkN cur (segs.take i) = some w ∧ segs[i]? = some seg ∧
          getSeg w seg = none ∧
          e = classifyError path (consumed ++ segs.take i) w seg) := by
  intro segs
  induction segs with
  | nil =>
    intro cur path consumed
    constructor
    · intro v; simp [traverseSegs, walkN]
    · intro e h; simp [traverseSegs] at h
  | cons s rest ih =>
    intro cur path consumed
    constructor
    · intro v
      cases cur with
      | null => simp [traverseSegs, walkN, isNullJ, getSeg]
      | str s2 => simp [traverseSegs, walkN, isNullJ, indexable, getSeg]
      | num n => simp [traverseSegs, walkN, isNullJ, indexable, getSeg]
      | bool b => simp [traverseSegs, walkN, isNullJ, indexable, getSeg]
      | arr xs =>
        cases h : getSeg (.arr xs) s with
        | some w =>
          simp [traverseSegs, walkN, isNullJ, indexable, h,
            (ih w path (consumed ++ [s])).1]
        | none => simp [traverseSegs, walkN, isNullJ, indexable, h]
      | obj fs =>
        cases h : getSeg (.obj fs) s with
        | some w =>
          simp [traverseSegs, walkN, isNullJ, indexable, h,
            (ih w path (consumed ++ [s])).1]
        | none => simp [traverseSegs, walkN, isNullJ, indexable, h]
    · intro e he
      cases cur with
      | null =>
        simp [traverseSegs, isNullJ] at he
        exact ⟨0, .null, s, by simp [walkN], by simp, by simp [getSeg],
          by simp [he, classifyError, isNullJ]⟩
      | str s2 =>
        simp [traverseSegs, isNullJ, indexable] at he
        exact ⟨0, .str s2, s, by simp [walkN], by simp, by simp [getSeg],
          by simp [he, classifyError, isNullJ, indexable]⟩
      | num n =>
        simp [traverseSegs, isNullJ, indexable] at he
        exact ⟨0, .num n, s, by simp [walkN], by simp, by simp [getSeg],
          by simp [he, classifyError, isNullJ, indexable]⟩
      | bool b =>
        simp [traverseSegs, isNullJ, indexable] at he
        exact ⟨0, .bool b, s, by simp [walkN], by simp, by simp [getSeg],
          by simp [he, classifyError, isNullJ, indexable]⟩
      | arr xs =>
        rw [traverseSegs] at he
        simp only [isNullJ, indexable, Bool.false_eq_true, if_false, if_true] at he
        cases h : getSeg (.arr xs) s with
        | some w =>
          rw [h] at he
          obtain ⟨i, w2, seg, h1, h2, h3, h4⟩ := (ih w path (consumed ++ [s])).2 e he
          refine ⟨i + 1, w2, seg, ?_, ?_, h3, ?_⟩
          · simp [walkN, h, h1]
          · simpa using h2
          · simpa [List.append_assoc] using h4
        | none =>
          rw [h] at he
          simp at he
          exact ⟨0, .arr xs, s, by simp [walkN], by simp, h,
            by simp [he, classifyError, isNullJ, indexable]⟩
      | obj fs =>
        rw [traverseSegs] at he
        simp only [isNullJ, indexable, Bool.false_eq_true, if_false, if_true] at he
        cases h : getSeg (.obj fs) s with
        | some w =>
          rw [h] at he
          obtain ⟨i, w2, seg, h1, h2, h3, h4⟩ := (ih w path (consumed ++ [s])).2 e he
          refine ⟨i + 1, w2, seg, ?_, ?_, h3, ?_⟩
          · simp [walkN, h, h1]
          · simpa using h2
          · simpa [List.append_assoc] using h4
        | none =>
          rw [h] at he
          simp at he
          exact ⟨0, .obj fs, s, by simp [walkN], by simp, h,
            by simp [he, classifyError, isNullJ, indexable]⟩

/-- C4: for every expression and context, evaluation returns the resolved
value exactly when no segment offends, and otherwise fails with exactly the
error classified from the first offending segment — null-traversal when the
intermediate value is null, a type error when it is not indexable, and the
missing-property error listing the available keys when the segment is
absent. -/
theorem c4_first_offending_segment (s : String) (ctx : JValue) :
    (∀ v, evaluateTemplate s ctx = .ok v ↔
      walkN ctx (finalSegments s ctx) = some v) ∧
    (∀ e, evaluateTemplate s ctx = .error e →
      ∃ i w seg, walkN ctx ((finalSegments s ctx).take i) = some w ∧
        (finalSegments s ctx)[i]? = some seg ∧ getSeg w seg = none ∧
        e = classifyError (pathOf s) ((finalSegments s ctx).take i) w seg) := by
  have h := traverse_characterization (finalSegments s ctx) ctx (pathOf s) []
  simpa [evaluateTemplate] using h

/-- C4 witness: traversing through a null intermediate fails with the
null-traversal error, matching the classification of the first offending
segment. -/
theorem c4_first_offending_segment_witness :
    evaluateTemplate "{{input.value.nested}}"
        (.obj [("input", .obj [("value", .null)])]) =
      .error (.nullTraversal "input.value.nested".toList
        [Seg.key "input", Seg.key "value"]) ∧
    (∃ i w seg,
      walkN (.obj [("input", .obj [("value", .null)])])
          ((finalSegments "{{input.value.nested}}"
            (.obj [("input", .obj [("value", .null)])])).take i) = some w ∧
        (finalSegments "{{input.value.nested}}"
          (.obj [("input", .obj [("value", .null)])]))[i]? = some seg ∧
        getSeg w seg = none ∧
        EvalError.nullTraversal "input.value.nested".toList
            [Seg.key "input", Seg.key "value"] =
          classifyError (pathOf "{{input.value.nested}}")
            ((finalSegments "{{input.value.nested}}"
              (.obj [("input", .obj [("value", .null)])])).take i) w seg) :=
  ⟨rfl,
    (c4_first_offending_segment "{{input.value.nested}}"
        (.obj [("input", .obj [("value", .null)])])).2 _ rfl⟩

/-! ## C5: delimiter stripping, dot splitting, bracket-index explosion -/

lemma takeWhile_append_of_all (p : Char → Bool) (a : List Char) (x : Char)
    (t : List Char) (h : ∀ c ∈ a, p c = true) (hx : p x = false) :
    (a ++ x :: t).takeWhile p = a := by
  induction a with
  | nil => simp [List.takeWhile, hx]
  | cons c cs ih =>
    have hc : p c = true := h c (by simp)
    simp only [List.cons_append, List.takeWhile_cons, hc, if_true]
    rw [ih (fun d hd => h d (by simp [hd]))]

lemma dropWhile_append_of_all (p : Char → Bool) (a : List Char) (x : Char)
    (t : List Char) (h : ∀ c ∈ a, p c = true) (hx : p x = false) :
    (a ++ x :: t).dropWhile p = x :: t := by
  induction a with
  | nil => simp [List.dropWhile, hx]
  | cons c cs ih =>
    have hc : p c = true := h c (by simp)
    simp only [List.cons_append, List.dropWhile_cons, hc, if_true]
    exact ih (fun d hd => h d (by simp [hd]))

lemma splitByDot_dotfree (cs : List Char) (h : ∀ c ∈ cs, c ≠ '.') :
    splitByDot cs = [cs] := by
  induction cs with
  | nil => rfl
  | cons c t ih =>
    have hc : c ≠ '.' := h c (by simp)
    rw [splitByDot, if_neg hc, ih (fun d hd => h d (by simp [hd]))]

lemma splitByDot_append_dot (a b : List Char) (h : ∀ c ∈ a, c ≠ '.') :
    splitByDot (a ++ '.' :: b) = a :: splitByDot b := by
  induction a with
  | nil => simp [splitByDot]
  | cons c t ih =>
    have hc : c ≠ '.' := h c (by simp)
    rw [List.cons_append, splitByDot, if_neg hc,
      ih (fun d hd => h d (by simp [hd]))]

lemma jsTrim_braced (cs : List Char) :
    jsTrim ('{' :: '{' :: (cs ++ ['}', '}'])) = '{' :: '{' :: (cs ++ ['}', '}']) := by
  have hws : Char.isWhitespace '{' = false := rfl
  have hws2 : Char.isWhitespace '}' = false := rfl
  unfold jsTrim
  rw [List.dropWhile_cons, hws]
  simp only [Bool.false_eq_true, if_false]
  have hrev : ('{' :: '{' :: (cs ++ ['}', '}'])).reverse
      = '}' :: '}' :: (cs.reverse ++ ['{', '{']) := by
    simp
  rw [hrev, List.dropWhile_cons, hws2]
  simp

/-- C5: evaluation strips the optional braces, splits the path on dots, and
explodes bracket-index segments; bundled with the two examples from the
spec: `{{steps[0].greeting}}` on `{steps:[{greeting:"Hi!"}]}` gives "Hi!",
and `{{input.name}}` on `{input:{name:"Alice"}}` gives "Alice". -/
theorem c5_parsing_and_examples :
    evaluateTemplate "{{steps[0].greeting}}"
        (.obj [("steps", .arr [.obj [("greeting", .str "Hi!")]])]) =
      .ok (.str "Hi!") ∧
    evaluateTemplate "{{input.name}}"
        (.obj [("input", .obj [("name", .str "Alice")])]) =
      .ok (.str "Alice") ∧
    (∀ cs : List Char, jsTrim cs = cs →
      pathOf (String.mk ('{' :: '{' :: (cs ++ ['}', '}']))) = cs) ∧
    (∀ cs : List Char, (∀ c ∈ cs, c ≠ '.') → splitByDot cs = [cs]) ∧
    (∀ a b : List Char, (∀ c ∈ a, c ≠ '.') →
      splitByDot (a ++ '.' :: b) = a :: splitByDot b) ∧
    (∀ name ds : List Char, name ≠ [] → (∀ c ∈ name, isWordChar c = true) →
      ds ≠ [] → (∀ c ∈ ds, c.isDigit = true) →
      explodeSegment (name ++ '[' :: (ds ++ [']'])) =
        [.key (String.mk name), .idx (natOfDigits ds)]) := by
  refine ⟨rfl, rfl, ?_, splitByDot_dotfree, splitByDot_append_dot, ?_⟩
  · intro cs h
    show stripBraces (jsTrim ('{' :: '{' :: (cs ++ ['}', '}']))) = cs
    rw [jsTrim_braced cs]
    unfold stripBraces
    have hcond : ('{' :: '{' :: (cs ++ ['}', '}'])).take 2 = ['{', '{'] := by simp
    have hrev : ('{' :: '{' :: (cs ++ ['}', '}'])).reverse
        = '}' :: '}' :: (cs.reverse ++ ['{', '{']) := by simp
    rw [if_pos]
    · simp [hrev, h]
    · exact ⟨hcond, by rw [hrev]; simp⟩
  · intro name ds hn hw hd hdig
    have hwb : isWordChar '[' = false := rfl
    have hdb : Char.isDigit ']' = false := rfl
    unfold explodeSegment matchArrayIndex
    rw [takeWhile_append_of_all isWordChar name '[' (ds ++ [']']) hw hwb,
      dropWhile_append_of_all isWordChar name '[' (ds ++ [']']) hw hwb]
    simp only
    rw [takeWhile_append_of_all Char.isDigit ds ']' [] hdig hdb,
      dropWhile_append_of_all Char.isDigit ds ']' [] hdig hdb]
    rw [if_pos ⟨hn, hd, rfl⟩]

/-- C5 witness: the general parsing facts applied at concrete inputs —
stripping `{{x.y}}`, splitting `ab.cd`, and exploding `steps[0]`. -/
theorem c5_parsing_and_examples_witness :
    pathOf (String.mk ('{' :: '{' :: ("x.y".toList ++ ['}', '}']))) = "x.y".toList ∧
    splitByDot "ab".toList = ["ab".toList] ∧
    splitByDot ("ab".toList ++ '.' :: "cd".toList) = ["ab".toList, "cd".toList] ∧
    explodeSegment ("steps".toList ++ '[' :: (['0'] ++ [']'])) =
      [.key "steps", .idx 0] :=
  ⟨c5_parsing_and_examples.2.2.1 "x.y".toList rfl,
   c5_parsing_and_examples.2.2.2.1 "ab".toList (by decide),
   by rw [c5_parsing_and_examples.2.2.2.2.1 "ab".toList "cd".toList (by decide)]
      exact congrArg _ (c5_parsing_and_examples.2.2.2.1 "cd".toList (by decide)),
   c5_parsing_and_examples.2.2.2.2.2 "steps".toList ['0'] (by decide) (by decide)
     (by decide) (by decide)⟩

/-! ## C3: implicit stepsByName rewrite -/

lemma dropWhile_id_of_none (p : Char → Bool) (cs : List Char)
    (h : ∀ c ∈ cs, p c = false) : cs.dropWhile p = cs := by
  cases cs with
  | nil => rfl
  | cons c t => rw [List.dropWhile_cons, h c (by simp)]; simp

lemma jsTrim_of_no_ws (cs : List Char)
    (h : ∀ c ∈ cs, Char.isWhitespace c = false) : jsTrim cs = cs := by
  unfold jsTrim
  rw [dropWhile_id_of_none _ cs h,
    dropWhile_id_of_none _ cs.reverse (fun c hc => h c (List.mem_reverse.mp hc)),
    List.reverse_reverse]

lemma stripBraces_of_no_brace (cs : List Char)
    (h : ∀ c ∈ cs, c ≠ '{') : stripBraces cs = cs := by
  unfold stripBraces
  rw [if_neg]
  rintro ⟨h1, -⟩
  have : '{' ∈ cs.take 2 := by rw [h1]; simp
  exact h '{' (List.take_subset 2 cs this) rfl

lemma ok_iff_of_same_segs (p1 p2 : List Char) (cur : JValue) (segs : List Seg)
    (c1 c2 : List Seg) (v : JValue) :
    traverseSegs p1 cur segs c1 = .ok v ↔ traverseSegs p2 cur segs c2 = .ok v := by
  rw [(traverse_characterization segs cur p1 c1).1 v,
    (traverse_characterization segs cur p2 c2).1 v]

/-- C3: a path whose first segment is not a reserved root but is a key of
the context's stepsByName mapping resolves exactly as the same path rooted
at stepsByName: the two evaluations return the same values. -/
theorem c3_stepsByName_sugar (p : String) (ctx : JValue) (n : String)
    (rest : List Seg)
    (hchars : ∀ c ∈ p.toList, Char.isWhitespace c = false ∧ c ≠ '{')
    (hparse : parseSegments p.toList = .key n :: rest)
    (hres : n ∉ reservedKeys)
    (hsbn : stepsByNameHas ctx (.key n) = true) :
    ∀ v, evaluateTemplate p ctx = .ok v ↔
      evaluateTemplate ("stepsByName." ++ p) ctx = .ok v := by
  intro v
  have hpath : pathOf p = p.toList := by
    unfold pathOf
    rw [jsTrim_of_no_ws p.toList (fun c hc => (hchars c hc).1),
      stripBraces_of_no_brace p.toList (fun c hc => (hchars c hc).2)]
  have hlist : ("stepsByName." ++ p).toList
      = "stepsByName".toList ++ '.' :: p.toList := by
    have : ("stepsByName." ++ p).toList = "stepsByName.".toList ++ p.toList := by
      simp [String.toList, String.data_append]
    rw [this]; rfl
  have hA : ∀ c ∈ "stepsByName".toList, Char.isWhitespace c = false := by decide
  have hB : ∀ c ∈ "stepsByName".toList, c ≠ '{' := by decide
  have hpre : ∀ c ∈ "stepsByName".toList ++ '.' :: p.toList,
      Char.isWhitespace c = false := by
    intro c hc
    rcases List.mem_append.mp hc with h1 | h1
    · exact hA c h1
    · rcases List.mem_cons.mp h1 with h2 | h2
      · subst h2; rfl
      · exact (hchars c h2).1
  have hpathR : pathOf ("stepsByName." ++ p)
      = "stepsByName".toList ++ '.' :: p.toList := by
    unfold pathOf
    rw [hlist, jsTrim_of_no_ws _ hpre, stripBraces_of_no_brace]
    intro c hc
    rcases List.mem_append.mp hc with h1 | h1
    · exact hB c h1
    · rcases List.mem_cons.mp h1 with h2 | h2
      · subst h2; decide
      · exact (hchars c h2).2
  have hsegR : parseSegments ("stepsByName".toList ++ '.' :: p.toList)
      = .key "stepsByName" :: parseSegments p.toList := by
    unfold parseSegments
    rw [splitByDot_append_dot "stepsByName".toList p.toList (by decide)]
    rfl
  have hreserved : segIsReserved (.key "stepsByName") = true := by decide
  have hnotres : segIsReserved (.key n) = false := by
    simp [segIsReserved, hres]
  have hsegsL : finalSegments p ctx
      = .key "stepsByName" :: .key n :: rest := by
    unfold finalSegments
    rw [hpath, hparse]
    simp [rewriteSegs, hnotres, hsbn]
  have hsegsR : finalSegments ("stepsByName." ++ p) ctx
      = .key "stepsByName" :: .key n :: rest := by
    unfold finalSegments
    rw [hpathR, hsegR, hparse]
    simp [rewriteSegs, hreserved]
  unfold evaluateTemplate
  rw [hsegsL, hsegsR]
  exact ok_iff_of_same_segs _ _ ctx _ [] [] v

/-- C3 witness: `{{greet.greeting}}` and `{{stepsByName.greet.greeting}}`
agree on a context whose stepsByName has key `greet`. -/
theorem c3_stepsByName_sugar_witness :
    evaluateTemplate "greet.greeting"
        (.obj [("stepsByName", .obj [("greet", .obj [("greeting", .str "Hello!")])])]) =
      .ok (.str "Hello!") ↔
    evaluateTemplate ("stepsByName." ++ "greet.greeting")
        (.obj [("stepsByName", .obj [("greet", .obj [("greeting", .str "Hello!")])])]) =
      .ok (.str "Hello!") :=
  c3_stepsByName_sugar "greet.greeting"
    (.obj [("stepsByName", .obj [("greet", .obj [("greeting", .str "Hello!")])])])
    "greet" [.key "greeting"] (by decide) (by decide) (by decide) rfl
    (.str "Hello!")

/-! ## C10: compile rebuilds arrays and objects element-wise -/

lemma compileFields_ok (ctx : JValue) :
    ∀ (fs gs : List (String × JValue)), compileFields fs ctx = .ok gs →
      gs.map Prod.fst = fs.map Prod.fst ∧
      List.Forall₂ (fun a b : String × JValue =>
        compileTemplate a.2 ctx = .ok b.2) fs gs := by
  intro fs
  induction fs with
  | nil =>
    intro gs h
    rw [compileFields] at h
    cases h
    simp
  | cons kv rest ih =>
    intro gs h
    obtain ⟨k, v⟩ := kv
    rw [compileFields] at h
    cases hc : compileTemplate v ctx with
    | error e => rw [hc] at h; cases h
    | ok cv =>
      rw [hc] at h
      cases hr : compileFields rest ctx with
      | error e => rw [hr] at h; cases h
      | ok cvs =>
        rw [hr] at h
        cases h
        obtain ⟨h1, h2⟩ := ih cvs hr
        exact ⟨by simp [h1], List.Forall₂.cons (by simpa using hc) h2⟩

lemma compileList_ok (ctx : JValue) :
    ∀ (xs ys : List JValue), compileList xs ctx = .ok ys →
      List.Forall₂ (fun a b : JValue => compileTemplate a ctx = .ok b) xs ys := by
  intro xs
  induction xs with
  | nil =>
    intro ys h
    rw [compileList] at h
    cases h
    simp
  | cons x rest ih =>
    intro ys h
    rw [compileList] at h
    cases hc : compileTemplate x ctx with
    | error e => rw [hc] at h; cases h
    | ok v =>
      rw [hc] at h
      cases hr : compileList rest ctx with
      | error e => rw [hr] at h; cases h
      | ok vs =>
        rw [hr] at h
        cases h
        exact List.Forall₂.cons hc (ih vs hr)

/-- C10: compile is a pure function that rebuilds arrays and objects —
a successful compile of an object yields a fresh field list with the same
keys in the same order whose values are the compiled originals, a
successful compile of an array yields the list of compiled elements, and
the array/object results are exactly the rebuilt structures (the template
argument and context, being values of a pure function, are unchanged). -/
theorem c10_compile_rebuilds (ctx : JValue) (fs gs : List (String × JValue))
    (xs ys : List JValue) :
    (compileFields fs ctx = .ok gs →
      gs.map Prod.fst = fs.map Prod.fst ∧
      List.Forall₂ (fun a b : String × JValue =>
        compileTemplate a.2 ctx = .ok b.2) fs gs) ∧
    (compileList xs ctx = .ok ys →
      List.Forall₂ (fun a b : JValue => compileTemplate a ctx = .ok b) xs ys) ∧
    compileTemplate (.obj fs) ctx = (compileFields fs ctx).map JValue.obj ∧
    compileTemplate (.arr xs) ctx = (compileList xs ctx).map JValue.arr :=
  ⟨compileFields_ok ctx fs gs, compileList_ok ctx xs ys,
    by rw [compileTemplate], by rw [compileTemplate]⟩

/-- C10 witness: a two-field object with one template compiles to the same
keys in order with compiled values. -/
theorem c10_compile_rebuilds_witness :
    [("regular", JValue.str "hello"), ("template", JValue.str "Alice")].map
        Prod.fst =
      [("regular", JValue.str "hello"),
        ("template", JValue.str "{{input.name}}")].map Prod.fst ∧
    List.Forall₂ (fun a b : String × JValue =>
        compileTemplate a.2 (.obj [("input", .obj [("name", .str "Alice")])]) =
          .ok b.2)
      [("regular", JValue.str "hello"), ("template", JValue.str "{{input.name}}")]
      [("regular", JValue.str "hello"), ("template", JValue.str "Alice")] :=
  (c10_compile_rebuilds (.obj [("input", .obj [("name", .str "Alice")])])
    [("regular", JValue.str "hello"), ("template", JValue.str "{{input.name}}")]
    [("regular", JValue.str "hello"), ("template", JValue.str "Alice")]
    [] []).1 rfl

/-! ## C7: referential integrity before cycle detection -/

lemma checkEndpointRefs_error_shape (cfg : Config) (ch : String) :
    ∀ (rs : List String) (err : DepError),
      checkEndpointRefs cfg ch rs = .error err →
      ∃ r, err = .configReference ch r ∧ r ∈ rs ∧ r ∉ endpointNames cfg := by
  intro rs
  induction rs with
  | nil => intro err h; rw [checkEndpointRefs] at h; cases h
  | cons r rest ih =>
    intro err h
    rw [checkEndpointRefs] at h
    by_cases hr : r ∈ endpointNames cfg
    · rw [if_pos hr] at h
      obtain ⟨r2, h1, h2, h3⟩ := ih err h
      exact ⟨r2, h1, by simp [h2], h3⟩
    · rw [if_neg hr] at h
      cases h
      exact ⟨r, rfl, by simp, hr⟩

lemma checkEndpointRefs_ok_all (cfg : Config) (ch : String) :
    ∀ rs : List String, checkEndpointRefs cfg ch rs = .ok () →
      ∀ r ∈ rs, r ∈ endpointNames cfg := by
  intro rs
  induction rs with
  | nil => intro _ r hr; cases hr
  | cons r rest ih =>
    intro h r2 hr2
    rw [checkEndpointRefs] at h
    by_cases hr : r ∈ endpointNames cfg
    · rw [if_pos hr] at h
      rcases List.mem_cons.mp hr2 with h1 | h1
      · exact h1 ▸ hr
      · exact ih h r2 h1
    · rw [if_neg hr] at h; cases h

lemma checkReferences_finds_bad (cfg : Config) :
    ∀ es : List Endpoint,
      (∃ e ∈ es, ∃ r ∈ chainRefs e, r ∉ endpointNames cfg) →
      ∃ ch un, checkReferences cfg es = .error (.configReference ch un) ∧
        (∃ e ∈ es, e.name = ch ∧ un ∈ chainRefs e) ∧
        un ∉ endpointNames cfg := by
  intro es
  induction es with
  | nil => rintro ⟨e, he, -⟩; cases he
  | cons e rest ih =>
    rintro ⟨e2, he2, r, hr, hbad⟩
    rw [checkReferences]
    cases hc : checkEndpointRefs cfg e.name (chainRefs e) with
    | error err =>
      obtain ⟨r2, h1, h2, h3⟩ := checkEndpointRefs_error_shape cfg e.name _ err hc
      exact ⟨e.name, r2, by rw [h1], ⟨e, by simp, rfl, h2⟩, h3⟩
    | ok u =>
      cases u
      rcases List.mem_cons.mp he2 with h1 | h1
      · subst h1
        exact absurd (checkEndpointRefs_ok_all cfg e2.name _ hc r hr) hbad
      · obtain ⟨ch, un, hh1, ⟨e3, he3, hh2, hh3⟩, hh4⟩ :=
          ih ⟨e2, h1, r, hr, hbad⟩
        exact ⟨ch, un, hh1, ⟨e3, by simp [he3], hh2, hh3⟩, hh4⟩

/-- C7: a configuration in which some chain step references an endpoint
name that no endpoint defines fails the dependency analysis with a
configuration-reference error naming a referencing chain and the unknown
endpoint — before any cycle detection runs (the result is a reference
error even if cycles are also present). -/
theorem c7_unknown_reference (cfg : Config)
    (hbad : ∃ e ∈ cfg.endpoints, ∃ r ∈ chainRefs e, r ∉ endpointNames cfg) :
    ∃ ch un, detectCircularDependencies cfg = .error (.configReference ch un) ∧
      (∃ e ∈ cfg.endpoints, e.name = ch ∧ un ∈ chainRefs e) ∧
      un ∉ endpointNames cfg := by
  obtain ⟨ch, un, h1, h2, h3⟩ := checkReferences_finds_bad cfg cfg.endpoints hbad
  exact ⟨ch, un, by rw [detectCircularDependencies, h1], h2, h3⟩

/-- C7 witness: the chain referencing the undefined endpoint `nonexistent`
fails with the reference error naming the chain and the endpoint. -/
theorem c7_unknown_reference_witness :
    ∃ ch un,
      detectCircularDependencies cfgMissing =
        .error (.configReference ch un) ∧
      (∃ e ∈ cfgMissing.endpoints, e.name = ch ∧ un ∈ chainRefs e) ∧
      un ∉ endpointNames cfgMissing :=
  c7_unknown_reference cfgMissing
    ⟨⟨"chain", .chain ⟨[⟨none, "nonexistent", .obj []⟩], none⟩⟩,
      List.mem_cons_self _ _, "nonexistent", by simp [chainRefs], by decide⟩

/-! ## C6: cycle detection — soundness of the reported cycle -/

lemma dropWhile_ne_mem (l : List String) (a : String) (h : a ∈ l) :
    ∃ t, l.dropWhile (· ≠ a) = a :: t := by
  induction l with
  | nil => cases h
  | cons b t ih =>
    by_cases hb : b = a
    · subst hb
      exact ⟨t, by simp [List.dropWhile_cons]⟩
    · rcases List.mem_cons.mp h with h1 | h1
      · exact absurd h1.symm hb
      · obtain ⟨t2, ht2⟩ := ih h1
        refine ⟨t2, ?_⟩
        rw [List.dropWhile_cons, if_pos (by simp [hb]), ht2]

lemma dfs_sound_visit (cfg : Config) :
    ∀ fuel : Nat,
      (∀ (node : String) (stack visited : List String) (e : DepError),
        stack.Nodup → List.Chain' (edge cfg) (stack ++ [node]) →
        dfsVisit cfg fuel node stack visited = .error e →
        ∃ c, e = .circular c ∧ IsSimpleCycle cfg c) := by
  intro fuel
  induction fuel with
  | zero => intro node stack visited e _ _ h; cases h
  | succ fuel ih =>
    have hfold : ∀ (nodes : List String) (stack visited : List String)
        (e : DepError), stack.Nodup → List.Chain' (edge cfg) stack →
        (∀ c ∈ nodes, ∀ u, stack.getLast? = some u → edge cfg u c) →
        foldVisit (dfsVisit cfg fuel) nodes stack visited = .error e →
        ∃ cyc, e = .circular cyc ∧ IsSimpleCycle cfg cyc := by
      intro nodes
      induction nodes with
      | nil => intro stack visited e _ _ _ h; cases h
      | cons c cs ihn =>
        intro stack visited e hnd hch hedge h
        rw [foldVisit] at h
        cases hv : dfsVisit cfg fuel c stack visited with
        | error e2 =>
          rw [hv] at h
          cases h
          refine ih c stack visited e hnd ?_ hv
          rcases List.eq_nil_or_concat stack with hs | ⟨s2, u, hs⟩
          · subst hs; simp
          · subst hs
            rw [List.chain'_append]
            refine ⟨hch, by simp, ?_⟩
            have hlast : (s2.concat u).getLast? = some u := by simp
            intro x hx y hy
            rw [hlast] at hx
            simp at hx hy
            subst hx
            subst hy
            exact hedge c (by simp) u hlast
        | ok v2 =>
          rw [hv] at h
          exact ihn stack v2 e hnd hch (fun c2 hc2 => hedge c2 (by simp [hc2])) h
    intro node stack visited e hnd hch h
    rw [dfsVisit] at h
    by_cases hmem : node ∈ stack
    · rw [if_pos hmem] at h
      cases h
      obtain ⟨t, ht⟩ := dropWhile_ne_mem stack node hmem
      refine ⟨node :: t ++ [node], by rw [ht], node, t, by simp, ?_, ?_⟩
      · have hsplit : stack ++ [node]
            = stack.takeWhile (· ≠ node) ++ (node :: t ++ [node]) := by
          conv_lhs => rw [← List.takeWhile_append_dropWhile (p := (· ≠ node))
            (l := stack)]
          rw [ht]
          simp
        have := hsplit ▸ hch
        exact this.right_of_append
      · have hsub : (node :: t).Sublist stack := by
          rw [← ht]; exact List.dropWhile_sublist _
        exact hnd.sublist hsub
    · rw [if_neg hmem] at h
      by_cases hvis : node ∈ visited
      · rw [if_pos hvis] at h; cases h
      · rw [if_neg hvis] at h
        cases hf : foldVisit (dfsVisit cfg fuel) (adj cfg node)
            (stack ++ [node]) visited with
        | error e2 =>
          rw [hf] at h
          cases h
          refine hfold (adj cfg node) (stack ++ [node]) visited e
            (by simp [List.nodup_append, hnd, hmem]) hch ?_ hf
          intro c hc u hu
          simp at hu
          subst hu
          exact hc
        | ok v2 => rw [hf] at h; cases h

/-! ## C6: cycle detection — completeness machinery -/

lemma length_filter_mono {α : Type} (p q : α → Bool)
    (himp : ∀ x, p x = true → q x = true) :
    ∀ l : List α, (l.filter p).length ≤ (l.filter q).length := by
  intro l
  induction l with
  | nil => simp
  | cons a t ih =>
    rw [List.filter_cons, List.filter_cons]
    cases hp : p a with
    | true => rw [himp a hp]; simpa using ih
    | false =>
      cases hq : q a with
      | true => simp; omega
      | false => simpa using ih

lemma length_filter_strict {α : Type} (p q : α → Bool)
    (himp : ∀ x, p x = true → q x = true) (a : α)
    (hpa : p a = false) (hqa : q a = true) :
    ∀ l : List α, a ∈ l → (l.filter p).length < (l.filter q).length := by
  intro l
  induction l with
  | nil => intro h; cases h
  | cons b t ih =>
    intro h
    rw [List.filter_cons, List.filter_cons]
    rcases List.mem_cons.mp h with h1 | h1
    · subst h1
      rw [hpa, hqa]
      have := length_filter_mono p q himp t
      simp
      omega
    · have := ih h1
      cases hp : p b with
      | true => rw [himp b hp]; simpa using this
      | false =>
        cases hq : q b with
        | true => simp; omega
        | false => simpa using this

lemma stackMeasure_push (cfg : Config) (stack : List String) (node : String)
    (hn : node ∈ cfgNames cfg) (hns : node ∉ stack) :
    stackMeasure cfg (stack ++ [node]) < stackMeasure cfg stack := by
  refine length_filter_strict _ _ ?_ node ?_ ?_ (cfgNames cfg) hn
  · intro x hx
    simp at hx ⊢
    exact hx.1
  · simp
  · simpa using hns

lemma adj_mem_cfgNames (cfg : Config) (u c : String) (h : c ∈ adj cfg u) :
    c ∈ cfgNames cfg := by
  unfold adj findEndpoint at h
  cases hf : cfg.endpoints.find? (fun e => e.name = u) with
  | none => rw [hf] at h; cases h
  | some e =>
    rw [hf] at h
    have he : e ∈ cfg.endpoints := List.mem_of_find?_eq_some hf
    exact List.mem_append_right _ (List.mem_flatMap.mpr ⟨e, he, h⟩)

lemma chainNames_mem_cfgNames (cfg : Config) (c : String)
    (h : c ∈ chainNames cfg) : c ∈ cfgNames cfg := by
  obtain ⟨e, he, hf⟩ := List.mem_filterMap.mp h
  refine List.mem_append_left _ ?_
  have : e.name = c := by
    cases hk : e.handler with
    | chain s => rw [hk] at hf; cases hf; rfl
    | primitive => rw [hk] at hf; cases hf
  exact this ▸ List.mem_map_of_mem _ he

lemma adj_ne_nil_mem_chainNames (cfg : Config) (u : String)
    (h : adj cfg u ≠ []) : u ∈ chainNames cfg := by
  unfold adj findEndpoint at h
  cases hf : cfg.endpoints.find? (fun e => e.name = u) with
  | none => rw [hf] at h; exact absurd rfl h
  | some e =>
    rw [hf] at h
    have he : e ∈ cfg.endpoints := List.mem_of_find?_eq_some hf
    have hname : e.name = u := by
      have := List.find?_some hf
      simpa using this
    cases hk : e.handler with
    | primitive =>
      have h2 : chainRefs e ≠ [] := h
      rw [show chainRefs e = [] from by simp [chainRefs, hk]] at h2
      exact absurd rfl h2
    | chain s =>
      refine List.mem_filterMap.mpr ⟨e, he, ?_⟩
      rw [hk, hname]

lemma dfs_complete_visit (cfg : Config) :
    ∀ fuel : Nat, ∀ (node : String) (stack visited out : List String),
      node ∈ cfgNames cfg →
      stackMeasure cfg stack < fuel →
      topoClosed cfg visited →
      dfsVisit cfg fuel node stack visited = .ok out →
      topoClosed cfg out ∧ node ∈ out ∧ visited ⊆ out := by
  intro fuel
  induction fuel with
  | zero => intro node stack visited out _ hm _ _; omega
  | succ fuel ih =>
    have hfold : ∀ (nodes : List String) (stack visited out : List String),
        (∀ c ∈ nodes, c ∈ cfgNames cfg) →
        stackMeasure cfg stack < fuel →
        topoClosed cfg visited →
        foldVisit (dfsVisit cfg fuel) nodes stack visited = .ok out →
        topoClosed cfg out ∧ (∀ c ∈ nodes, c ∈ out) ∧ visited ⊆ out := by
      intro nodes
      induction nodes with
      | nil =>
        intro stack visited out _ _ ht h
        rw [foldVisit] at h
        cases h
        exact ⟨ht, by simp, List.Subset.refl _⟩
      | cons c cs ihn =>
        intro stack visited out hcn hm ht h
        rw [foldVisit] at h
        cases hv : dfsVisit cfg fuel c stack visited with
        | error e => rw [hv] at h; cases h
        | ok v2 =>
          rw [hv] at h
          obtain ⟨ht2, hcin, hsub2⟩ :=
            ih c stack visited v2 (hcn c (by simp)) hm ht hv
          obtain ⟨ht3, hcs, hsub3⟩ :=
            ihn stack v2 out (fun c2 hc2 => hcn c2 (by simp [hc2])) hm ht2 h
          refine ⟨ht3, ?_, fun x hx => hsub3 (hsub2 hx)⟩
          intro c2 hc2
          rcases List.mem_cons.mp hc2 with h1 | h1
          · exact h1 ▸ hsub3 hcin
          · exact hcs c2 h1
    intro node stack visited out hn hm ht h
    rw [dfsVisit] at h
    by_cases hmem : node ∈ stack
    · rw [if_pos hmem] at h; cases h
    · rw [if_neg hmem] at h
      by_cases hvis : node ∈ visited
      · rw [if_pos hvis] at h
        cases h
        exact ⟨ht, hvis, List.Subset.refl _⟩
      · rw [if_neg hvis] at h
        cases hf : foldVisit (dfsVisit cfg fuel) (adj cfg node)
            (stack ++ [node]) visited with
        | error e => rw [hf] at h; cases h
        | ok v2 =>
          rw [hf] at h
          cases h
          have hm2 : stackMeasure cfg (stack ++ [node]) < fuel := by
            have := stackMeasure_push cfg stack node hn hmem
            omega
          obtain ⟨ht2, hall, hsub⟩ := hfold (adj cfg node) (stack ++ [node])
            visited v2 (fun c hc => adj_mem_cfgNames cfg node c hc) hm2 ht hf
          refine ⟨?_, by simp, fun x hx => List.mem_cons_of_mem _ (hsub hx)⟩
          exact show (∀ w, edge cfg node w → w ∈ v2) ∧ topoClosed cfg v2 from
            ⟨fun w hw => hall w hw, ht2⟩

lemma chain_snoc {α : Type} (R : α → α → Prop) :
    ∀ (l : List α) (a b : α), List.Chain R a l →
      R ((a :: l).getLast (by simp)) b → List.Chain R a (l ++ [b]) := by
  intro l
  induction l with
  | nil =>
    intro a b _ hr
    exact List.Chain.cons (by simpa using hr) List.Chain.nil
  | cons c t ih =>
    intro a b hch hr
    obtain ⟨hac, hct⟩ := List.chain_cons.mp hch
    rw [List.getLast_cons (by simp)] at hr
    rw [List.cons_append]
    exact List.chain_cons.mpr ⟨hac, ih c b hct hr⟩

lemma topoClosed_no_cycle (cfg : Config) :
    ∀ vs : List String, topoClosed cfg vs →
      ∀ u, u ∈ vs → ∀ l : List String, l ≠ [] →
        List.Chain (edge cfg) u l → l.getLast? = some u → False := by
  intro vs
  induction vs with
  | nil => intro _ u hu; cases hu
  | cons a rest ih =>
    intro ht u hu l hne hch hlast
    have ht' : (∀ w, edge cfg a w → w ∈ rest) ∧ topoClosed cfg rest := ht
    obtain ⟨hsucc, ht2⟩ := ht'
    rcases List.mem_cons.mp hu with h1 | h1
    · subst h1
      cases l with
      | nil => exact hne rfl
      | cons v l2 =>
        obtain ⟨huv, hvl⟩ := List.chain_cons.mp hch
        have hv : v ∈ rest := hsucc v huv
        have hlast2 : (v :: l2).getLast (by simp) = u := by
          have h3 := List.getLast?_eq_getLast (v :: l2) (by simp)
          rw [h3] at hlast
          exact Option.some.inj hlast
        have hchain2 : List.Chain (edge cfg) v (l2 ++ [v]) := by
          refine chain_snoc _ l2 v v hvl ?_
          rw [hlast2]
          exact huv
        exact ih ht2 v hv (l2 ++ [v]) (by simp) hchain2 (by simp)
    · exact ih ht2 u h1 l hne hch hlast

lemma checkEndpointRefs_ok_of_all (cfg : Config) (ch : String) :
    ∀ rs : List String, (∀ r ∈ rs, r ∈ endpointNames cfg) →
      checkEndpointRefs cfg ch rs = .ok () := by
  intro rs
  induction rs with
  | nil => intro _; rfl
  | cons r rest ih =>
    intro h
    rw [checkEndpointRefs, if_pos (h r (by simp))]
    exact ih (fun r2 hr2 => h r2 (by simp [hr2]))

lemma checkReferences_ok_of_refsOk (cfg : Config) (href : RefsOk cfg) :
    ∀ es : List Endpoint, (∀ e ∈ es, e ∈ cfg.endpoints) →
      checkReferences cfg es = .ok () := by
  intro es
  induction es with
  | nil => intro _; rfl
  | cons e rest ih =>
    intro h
    rw [checkReferences,
      checkEndpointRefs_ok_of_all cfg e.name (chainRefs e)
        (href e (h e (by simp)))]
    exact ih (fun e2 he2 => h e2 (by simp [he2]))

lemma isSimpleCycle_hasCycle (cfg : Config) (c : List String)
    (h : IsSimpleCycle cfg c) : HasCycle cfg := by
  obtain ⟨u, t, hc, hch, -⟩ := h
  subst hc
  refine ⟨u, t ++ [u], by simp, ?_, by simp⟩
  exact hch

lemma dfs_sound_fold (cfg : Config) (fuel : Nat) :
    ∀ (nodes stack visited : List String) (e : DepError),
      stack.Nodup → List.Chain' (edge cfg) stack →
      (∀ c ∈ nodes, ∀ u, stack.getLast? = some u → edge cfg u c) →
      foldVisit (dfsVisit cfg fuel) nodes stack visited = .error e →
      ∃ cyc, e = .circular cyc ∧ IsSimpleCycle cfg cyc := by
  intro nodes
  induction nodes with
  | nil => intro stack visited e _ _ _ h; cases h
  | cons c cs ihn =>
    intro stack visited e hnd hch hedge h
    rw [foldVisit] at h
    cases hv : dfsVisit cfg fuel c stack visited with
    | error e2 =>
      rw [hv] at h
      cases h
      refine dfs_sound_visit cfg fuel c stack visited e hnd ?_ hv
      rcases List.eq_nil_or_concat stack with hs | ⟨s2, u, hs⟩
      · subst hs; simp
      · subst hs
        rw [List.chain'_append]
        refine ⟨hch, by simp, ?_⟩
        have hlast : (s2.concat u).getLast? = some u := by simp
        intro x hx y hy
        rw [hlast] at hx
        simp at hx hy
        subst hx
        subst hy
        exact hedge c (by simp) u hlast
    | ok v2 =>
      rw [hv] at h
      exact ihn stack v2 e hnd hch (fun c2 hc2 => hedge c2 (by simp [hc2])) h

lemma dfs_complete_fold (cfg : Config) (fuel : Nat) :
    ∀ (nodes stack visited out : List String),
      (∀ c ∈ nodes, c ∈ cfgNames cfg) →
      stackMeasure cfg stack < fuel →
      topoClosed cfg visited →
      foldVisit (dfsVisit cfg fuel) nodes stack visited = .ok out →
      topoClosed cfg out ∧ (∀ c ∈ nodes, c ∈ out) ∧ visited ⊆ out := by
  intro nodes
  induction nodes with
  | nil =>
    intro stack visited out _ _ ht h
    rw [foldVisit] at h
    cases h
    exact ⟨ht, by simp, List.Subset.refl _⟩
  | cons c cs ihn =>
    intro stack visited out hcn hm ht h
    rw [foldVisit] at h
    cases hv : dfsVisit cfg fuel c stack visited with
    | error e => rw [hv] at h; cases h
    | ok v2 =>
      rw [hv] at h
      obtain ⟨ht2, hcin, hsub2⟩ :=
        dfs_complete_visit cfg fuel c stack visited v2 (hcn c (by simp)) hm
          ht hv
      obtain ⟨ht3, hcs, hsub3⟩ :=
        ihn stack v2 out (fun c2 hc2 => hcn c2 (by simp [hc2])) hm ht2 h
      refine ⟨ht3, ?_, fun x hx => hsub3 (hsub2 hx)⟩
      intro c2 hc2
      rcases List.mem_cons.mp hc2 with h1 | h1
      · exact h1 ▸ hsub3 hcin
      · exact hcs c2 h1

lemma checkReferences_error_shape (cfg : Config) :
    ∀ (es : List Endpoint) (err : DepError),
      checkReferences cfg es = .error err →
      ∃ ch un, err = .configReference ch un := by
  intro es
  induction es with
  | nil => intro err h; cases h
  | cons e rest ih =>
    intro err h
    rw [checkReferences] at h
    cases hc : checkEndpointRefs cfg e.name (chainRefs e) with
    | error e2 =>
      rw [hc] at h
      obtain ⟨r, h1, -, -⟩ := checkEndpointRefs_error_shape cfg e.name _ e2 hc
      cases h
      exact ⟨e.name, r, h1⟩
    | ok u => cases u; rw [hc] at h; exact ih err h

/-- C6: the startup dependency analysis is sound and complete for cycles —
every reported CircularDependencyError lists, in traversal order, all the
nodes of one genuine simple cycle of the chain-reference graph (with the
entry node repeated at the end); and when every referenced name exists, the
analysis succeeds exactly on the acyclic configurations, so any
configuration with a cycle fails no matter where the traversal entered. -/
theorem c6_cycle_detection (cfg : Config) :
    (∀ c, detectCircularDependencies cfg = .error (.circular c) →
      IsSimpleCycle cfg c) ∧
    (RefsOk cfg →
      (detectCircularDependencies cfg = .ok () ↔ ¬ HasCycle cfg)) := by
  constructor
  · intro c h
    unfold detectCircularDependencies at h
    cases hcr : checkReferences cfg cfg.endpoints with
    | error e =>
      rw [hcr] at h
      cases h
      obtain ⟨ch, un, hshape⟩ :=
        checkReferences_error_shape cfg cfg.endpoints _ hcr
      cases hshape
    | ok u =>
      cases u
      rw [hcr] at h
      cases hf : foldVisit (dfsVisit cfg ((cfgNames cfg).length + 1))
          (chainNames cfg) [] [] with
      | error e =>
        rw [hf] at h
        cases h
        obtain ⟨cyc, hcyc, hsimple⟩ :=
          dfs_sound_fold cfg ((cfgNames cfg).length + 1) (chainNames cfg)
            [] [] _ (by simp) (by simp) (by intro c2 _ u2 hu2; cases hu2) hf
        cases hcyc
        exact hsimple
      | ok out => rw [hf] at h; cases h
  · intro href
    have hcr : checkReferences cfg cfg.endpoints = .ok () :=
      checkReferences_ok_of_refsOk cfg href cfg.endpoints (fun e he => he)
    have hmz : stackMeasure cfg ([] : List String) = (cfgNames cfg).length := by
      simp [stackMeasure]
    constructor
    · intro h hcy
      obtain ⟨u, l, hne, hch, hlast⟩ := hcy
      unfold detectCircularDependencies at h
      rw [hcr] at h
      cases hf : foldVisit (dfsVisit cfg ((cfgNames cfg).length + 1))
          (chainNames cfg) [] [] with
      | error e => rw [hf] at h; cases h
      | ok out =>
        obtain ⟨htopo, hallchains, -⟩ :=
          dfs_complete_fold cfg ((cfgNames cfg).length + 1) (chainNames cfg)
            [] [] out (fun c2 hc2 => chainNames_mem_cfgNames cfg c2 hc2)
            (by omega) trivial hf
        cases l with
        | nil => exact hne rfl
        | cons v l2 =>
          have huv : edge cfg u v := (List.chain_cons.mp hch).1
          have hu : u ∈ chainNames cfg :=
            adj_ne_nil_mem_chainNames cfg u (List.ne_nil_of_mem huv)
          exact topoClosed_no_cycle cfg out htopo u (hallchains u hu)
            (v :: l2) (by simp) hch hlast
    · intro hnc
      unfold detectCircularDependencies
      rw [hcr]
      cases hf : foldVisit (dfsVisit cfg ((cfgNames cfg).length + 1))
          (chainNames cfg) [] [] with
      | error e =>
        obtain ⟨cyc, hcyc, hsimple⟩ :=
          dfs_sound_fold cfg ((cfgNames cfg).length + 1) (chainNames cfg)
            [] [] _ (by simp) (by simp) (by intro c2 _ u2 hu2; cases hu2) hf
        exact absurd (isSimpleCycle_hasCycle cfg cyc hsimple) hnc
      | ok out => rfl

/-- C6 witness: the two-chain cycle a -> b -> a is reported as the genuine
simple cycle ["a", "b", "a"], and on the acyclic sample configuration the
analysis succeeds exactly because there is no cycle. -/
theorem c6_cycle_detection_witness :
    IsSimpleCycle cfgAB ["a", "b", "a"] ∧
    (detectCircularDependencies cfgGood = .ok () ↔ ¬ HasCycle cfgGood) :=
  ⟨(c6_cycle_detection cfgAB).1 ["a", "b", "a"] rfl,
   (c6_cycle_detection cfgGood).2 (by decide)⟩

/-! ## C8, C9: chain executor semantics -/

lemma runSteps_append_ok (reg : Registry) :
    ∀ (pre post : List MStep) (ctx : ECtx) (idx : Nat) (ctx2 : ECtx),
      runSteps reg pre ctx idx = .ok ctx2 →
      runSteps reg (pre ++ post) ctx idx =
        runSteps reg post ctx2 (idx + pre.length) := by
  intro pre
  induction pre with
  | nil =>
    intro post ctx idx ctx2 h
    rw [runSteps] at h
    cases h
    simp
  | cons s rest ih =>
    intro post ctx idx ctx2 h
    rw [runSteps] at h
    rw [List.cons_append, runSteps]
    cases hl : lookupReg reg s.endpoint with
    | none => rw [hl] at h; cases h
    | some entry =>
      rw [hl] at h
      have h2 : (match stepOutcome entry s ctx idx with
          | .error e => (.error e : Except ChainError ECtx)
          | .ok output =>
            runSteps reg rest (recordOutput ctx s output) (idx + 1)) =
          .ok ctx2 := h
      cases ho : stepOutcome entry s ctx idx with
      | error e => rw [ho] at h2; cases h2
      | ok output =>
        rw [ho] at h2
        have h3 : runSteps reg rest (recordOutput ctx s output) (idx + 1)
            = .ok ctx2 := h2
        show (match stepOutcome entry s ctx idx with
          | .error e => (.error e : Except ChainError ECtx)
          | .ok output =>
            runSteps reg (rest ++ post) (recordOutput ctx s output)
              (idx + 1)) =
          runSteps reg post ctx2 (idx + (s :: rest).length)
        rw [ho]
        show runSteps reg (rest ++ post) (recordOutput ctx s output) (idx + 1)
            = runSteps reg post ctx2 (idx + (s :: rest).length)
        rw [ih post _ _ _ h3]
        congr 1
        simp
        omega

lemma stepOutcome_handler_error (entry : REntry) (s : MStep) (ctx : ECtx)
    (idx : Nat) (ci : JValue) (msg : String)
    (hcomp : compileTemplate s.input (ctxValue ctx) = .ok ci)
    (hvi : applyValidator entry.validateInput ci = true)
    (hfail : entry.handler ci = .error msg) :
    stepOutcome entry s ctx idx =
      .error (.handlerFailure idx s.name s.endpoint msg) := by
  unfold stepOutcome
  rw [hcomp]
  simp only [hvi, if_true, hfail]

lemma runSteps_handler_error (reg : Registry) (rest : List MStep) (s : MStep)
    (ctx : ECtx) (idx : Nat) (entry : REntry) (ci : JValue) (msg : String)
    (hlook : lookupReg reg s.endpoint = some entry)
    (hcomp : compileTemplate s.input (ctxValue ctx) = .ok ci)
    (hvi : applyValidator entry.validateInput ci = true)
    (hfail : entry.handler ci = .error msg) :
    runSteps reg (s :: rest) ctx idx =
      .error (.handlerFailure idx s.name s.endpoint msg) := by
  rw [runSteps, hlook]
  show (match stepOutcome entry s ctx idx with
    | .error e => (.error e : Except ChainError ECtx)
    | .ok output =>
      runSteps reg rest (recordOutput ctx s output) (idx + 1)) =
    .error (.handlerFailure idx s.name s.endpoint msg)
  rw [stepOutcome_handler_error entry s ctx idx ci msg hcomp hvi hfail]

/-- C8: when the target handler of a step fails, the executor aborts at
exactly that step — the result is the handler-failure ChainExecutionError
carrying the step's index, its name when present, the target endpoint and
the underlying message, and it does not depend on the steps that follow
(no later step runs, no retry). -/
theorem c8_handler_failure_aborts (reg : Registry) (pre rest : List MStep)
    (s : MStep) (out : Option JValue) (input : JValue) (ctx : ECtx)
    (entry : REntry) (ci : JValue) (msg : String)
    (hpre : runSteps reg pre (initCtx input) 0 = .ok ctx)
    (hlook : lookupReg reg s.endpoint = some entry)
    (hcomp : compileTemplate s.input (ctxValue ctx) = .ok ci)
    (hvi : applyValidator entry.validateInput ci = true)
    (hfail : entry.handler ci = .error msg) :
    executeChain reg ⟨pre ++ s :: rest, out⟩ input =
      .error (.handlerFailure pre.length s.name s.endpoint msg) := by
  unfold executeChain
  rw [show (ChainSpec.mk (pre ++ s :: rest) out).steps = pre ++ s :: rest
      from rfl,
    runSteps_append_ok reg pre (s :: rest) (initCtx input) 0 ctx hpre,
    runSteps_handler_error reg rest s ctx (0 + pre.length) entry ci msg
      hlook hcomp hvi hfail]
  simp

/-- C8 witness: a handler failing with "Handler failed" aborts the chain at
step 0 with the wrapped message, even though a further step follows. -/
theorem c8_handler_failure_aborts_witness :
    executeChain
      [("failing", ⟨fun _ => .error "Handler failed", none, none⟩),
       ("fine", ⟨fun _ => .ok (.obj []), none, none⟩)]
      ⟨[⟨none, "failing", .obj []⟩, ⟨none, "fine", .obj []⟩], none⟩
      (.obj []) =
      .error (.handlerFailure 0 none "failing" "Handler failed") :=
  c8_handler_failure_aborts
    [("failing", ⟨fun _ => .error "Handler failed", none, none⟩),
     ("fine", ⟨fun _ => .ok (.obj []), none, none⟩)]
    [] [⟨none, "fine", .obj []⟩] ⟨none, "failing", .obj []⟩ none (.obj [])
    (initCtx (.obj [])) ⟨fun _ => .error "Handler failed", none, none⟩
    (.obj []) "Handler failed" rfl rfl rfl rfl rfl

/-- C9: after all steps succeed, the executor compiles `output` against the
final context when it is present, and otherwise returns the last recorded
step output verbatim — when the recorded outputs end in `last`, the result
is exactly `last`, with no merge of earlier step outputs. -/
theorem c9_chain_output (reg : Registry) (steps : List MStep)
    (input : JValue) (ctx : ECtx) (tmpl : JValue)
    (hrun : runSteps reg steps (initCtx input) 0 = .ok ctx) :
    executeChain reg ⟨steps, some tmpl⟩ input =
      (compileTemplate tmpl (ctxValue ctx)).mapError ChainError.outputFailure ∧
    executeChain reg ⟨steps, none⟩ input = .ok (ctx.steps.getLastD .null) ∧
    (∀ pre last, ctx.steps = pre ++ [last] →
      executeChain reg ⟨steps, none⟩ input = .ok last) := by
  refine ⟨?_, ?_, ?_⟩
  · unfold executeChain
    rw [show (ChainSpec.mk steps (some tmpl)).steps = steps from rfl, hrun]
  · unfold executeChain
    rw [show (ChainSpec.mk steps none).steps = steps from rfl, hrun]
  · intro pre last hsteps
    unfold executeChain
    rw [show (ChainSpec.mk steps none).steps = steps from rfl, hrun]
    simp [hsteps]

/-- C9 witness: two successful steps producing `{a:1}` then `{b:2}` with no
output mapping yield exactly `{b:2}`. -/
theorem c9_chain_output_witness :
    executeChain
      [("step1", ⟨fun _ => .ok (.obj [("a", .num 1)]), none, none⟩),
       ("step2", ⟨fun _ => .ok (.obj [("b", .num 2)]), none, none⟩)]
      ⟨[⟨none, "step1", .obj []⟩, ⟨none, "step2", .obj []⟩], none⟩
      (.obj []) = .ok (.obj [("b", .num 2)]) :=
  (c9_chain_output
    [("step1", ⟨fun _ => .ok (.obj [("a", .num 1)]), none, none⟩),
     ("step2", ⟨fun _ => .ok (.obj [("b", .num 2)]), none, none⟩)]
    [⟨none, "step1", .obj []⟩, ⟨none, "step2", .obj []⟩]
    (.obj [])
    ⟨.obj [], [.obj [("a", .num 1)], .obj [("b", .num 2)]], [],
      some (.obj [("b", .num 2)])⟩
    (.obj []) rfl).2.2 [.obj [("a", .num 1)]] (.obj [("b", .num 2)]) rfl
